import Mathlib

/-!
Shallow embedding of the `away` HTTP router (`way.go`, package `away`,
a fork of `matryer/way`), for checking its natural-language specification.

Modelling conventions, stated once:

* Go `string` is modelled by Lean `String` (a structure over `List Char`).
  Go's byte-wise lexicographic `<` on UTF-8 strings coincides with
  codepoint-wise lexicographic order, which is what `listLt` implements.
* `strings.ToLower` / `strings.EqualFold` are modelled by ASCII case
  mapping (`lowerChar`): Unicode special casing is out of scope; every
  concrete input appearing in the repository and its tests is ASCII.
* `http.Handler` is opaque to the router; it is modelled by an identifier
  of type `Nat`.  Invoking a handler is modelled by `dispatch` returning
  the chosen route (`some`); the fallback `NotFound` handler is modelled
  by `dispatch` returning `none`.
* `context.Context` with `context.WithValue` / `ctx.Value` is modelled by
  an association list to which new bindings are prepended and in which
  lookup returns the first (most recently added) binding.
* `sort.Sort` guarantees a `Less`-sorted permutation exactly when `Less`
  is a strict weak order; it is modelled here by insertion sort
  (`insSort`), which provides the identical guarantee.  No claim depends
  on the relative order of entries the comparator cannot distinguish.
* `Router.Remove` iterates, Go-style, over a snapshot of the slice header
  taken at loop entry while `removeIndex` shifts the shared backing array
  in place; `removeLoop` reproduces that aliasing exactly, including the
  out-of-range slice panic (modelled as `none`).
-/

/-- ASCII case mapping for one character: `A`..`Z` (codes 65..90) map 32
codepoints up, everything else is fixed.  Models Go `strings.ToLower`
restricted to ASCII. -/
def lowerChar (c : Char) : Char :=
  if 65 ≤ c.toNat && c.toNat ≤ 90 then Char.ofNat (c.toNat + 32) else c

/-- Lower-casing of a whole string, characterwise. -/
def toLowerStr (s : String) : String :=
  ⟨s.data.map lowerChar⟩

/-- Does the first character list start with the second?  Models Go
`strings.HasPrefix` on the underlying bytes. -/
def listStartsWith : List Char → List Char → Bool
  | _, [] => true
  | [], _ :: _ => false
  | a :: as, b :: bs => a = b && listStartsWith as bs

/-- String form of `listStartsWith`; models `strings.HasPrefix s p`. -/
def strStartsWith (s p : String) : Bool :=
  listStartsWith s.data p.data

/-- Models `strings.HasSuffix s p` via the reversed character lists. -/
def strEndsWith (s p : String) : Bool :=
  listStartsWith s.data.reverse p.data.reverse

/-- Does the character list contain the character?  Models
`strings.Contains s c` for a one-character needle. -/
def listHasChar (c : Char) : List Char → Bool
  | [] => false
  | a :: as => a = c || listHasChar c as

/-- String form of `listHasChar`. -/
def strHasChar (s : String) (c : Char) : Bool :=
  listHasChar c s.data

/-- Codepoint-wise lexicographic strict order on character lists.  Agrees
with Go's byte-wise `<` on the UTF-8 encodings. -/
def listLt : List Char → List Char → Bool
  | _, [] => false
  | [], _ :: _ => true
  | a :: as, b :: bs => a.toNat < b.toNat || (a.toNat = b.toNat && listLt as bs)

/-- Models Go string comparison `s < t`. -/
def strLt (s t : String) : Bool :=
  listLt s.data t.data

/-- Drops every leading occurrence of `c`. -/
def dropLeading (c : Char) : List Char → List Char
  | [] => []
  | a :: as => if a = c then dropLeading c as else a :: as

/-- Models `strings.Trim s "/"`: removes all leading and trailing `/`. -/
def trimSlashes (s : String) : List Char :=
  (dropLeading '/' (dropLeading '/' s.data).reverse).reverse

/-- Splits a character list at every occurrence of `sep`; always returns a
nonempty list of pieces, `n` separators giving `n + 1` pieces.  Models Go
`strings.Split` (whose result on `""` is `[""]`). -/
def splitOnChar (sep : Char) : List Char → List (List Char)
  | [] => [[]]
  | c :: rest =>
    match splitOnChar sep rest with
    | [] => [[]]
    | piece :: pieces =>
      if c = sep then [] :: piece :: pieces else (c :: piece) :: pieces

/-- Models `Router.pathSegments`: `strings.Split(strings.Trim(p, "/"), "/")`. -/
def pathSegments (p : String) : List String :=
  (splitOnChar '/' (trimSlashes p)).map (fun l => ⟨l⟩)

/-- Models `strings.EqualFold` for ASCII strings. -/
def equalFold (a b : String) : Bool :=
  toLowerStr a = toLowerStr b

/-- Request-scoped parameter bindings: the model of a `context.Context`
carrying `wayContextKey` entries, most recent first. -/
abbrev Ctx := List (String × String)

/-- Models the `route` struct of `way.go`.  `isPfx` is the `prefix` field;
the handler is an opaque identifier. -/
structure Route where
  pattern : String
  method : String
  segs : List String
  handler : Nat
  isPfx : Bool
  deriving DecidableEq, Repr

/-- Models the `Router` struct; `NotFound` is represented implicitly by
the `none` outcome of `dispatch`. -/
structure Router where
  routes : List Route
  deriving DecidableEq, Repr

/-- Models `NewRouter()`. -/
def emptyRouter : Router := ⟨[]⟩

/-- Models `Router.Count`. -/
def countRoutes (r : Router) : Nat := r.routes.length

/-- Models `routeList.Less` of `way.go`, branch for branch: patterns whose
lower-casing starts with `/:` are sent after everything (the first two
branches), then literal-only patterns precede patterns containing `:`,
then case-insensitive string order with a case-sensitive tie-break. -/
def lessPat (si sj : String) : Bool :=
  if strStartsWith (toLowerStr sj) "/:" then true
  else if strStartsWith (toLowerStr si) "/:" then false
  else if strHasChar (toLowerStr sj) ':' && !(strHasChar (toLowerStr si) ':') then true
  else if !(strHasChar (toLowerStr sj) ':') && strHasChar (toLowerStr si) ':' then false
  else if toLowerStr si = toLowerStr sj then strLt si sj
  else strLt (toLowerStr si) (toLowerStr sj)

/-- Non-strict companion of `lessPat` on routes: `a` may precede `b` in a
`Less`-sorted table iff `b` is not strictly before `a`. -/
def routeLe (a b : Route) : Bool :=
  !(lessPat b.pattern a.pattern)

/-- Insertion of one route into a list, before the first element it may
precede.  Together with `insSort` this models the `sort.Sort(r.routes)`
call of `Router.Handle`. -/
def ordIns (a : Route) : List Route → List Route
  | [] => [a]
  | b :: l => if routeLe a b then a :: b :: l else b :: ordIns a l

/-- Insertion sort by `routeLe`; the model of `sort.Sort` on `routeList`. -/
def insSort : List Route → List Route
  | [] => []
  | a :: l => ordIns a (insSort l)

/-- Models the `route` literal built inside `Router.Handle`. -/
def mkRoute (method pat : String) (h : Nat) : Route :=
  { pattern := pat
    method := toLowerStr method
    segs := pathSegments pat
    handler := h
    isPfx := strEndsWith pat "/" || strEndsWith pat "..." }

/-- Models `Router.Handle`: append the new route, then sort. -/
def handle (r : Router) (method pat : String) (h : Nat) : Router :=
  ⟨insSort (r.routes ++ [mkRoute method pat h])⟩

/-- Models `removeIndex(s, index)`'s effect on the shared backing array
when the current slice has length `n` inside `Router.Remove`: positions
`index .. n-2` receive the elements formerly at `index+1 .. n-1`, and all
other positions of the backing array are untouched. -/
def removeShift (bk : List Route) (i n : Nat) : List Route :=
  bk.take i ++ (bk.drop (i + 1)).take (n - 1 - i) ++ bk.drop (n - 1)

/-- Models the `for index, v := range r.routes` loop of `Router.Remove`.
`k` is the number of iterations left (the range snapshot has fixed
length), `i` the current index, `bk` the backing array, `n` the length of
the current `r.routes` slice.  The branch `i < n` mirrors the slice
expression `s[index+1:]`, which panics (`none`) when `index + 1`
exceeds the current length. -/
def removeLoop (method pat : String) : Nat → Nat → List Route → Nat →
    Option (List Route × Nat)
  | 0, _, bk, n => some (bk, n)
  | k + 1, i, bk, n =>
    match bk.get? i with
    | none => some (bk, n)
    | some v =>
      if v.pattern = pat && equalFold v.method method then
        if i < n then removeLoop method pat k (i + 1) (removeShift bk i n) (n - 1)
        else none
      else removeLoop method pat k (i + 1) bk n

/-- Models `Router.Remove`; `none` is the Go runtime panic raised by the
slice expression in `removeIndex` when duplicates make the current slice
shorter than the range snapshot. -/
def removeGo (r : Router) (method pat : String) : Option Router :=
  (removeLoop method pat r.routes.length 0 r.routes r.routes.length).map
    (fun p => ⟨p.1.take p.2⟩)

/-- Number of table entries the removal key identifies, per the spec:
pattern exactly equal and method case-insensitively equal. -/
def countMatching (r : Router) (method pat : String) : Nat :=
  (r.routes.filter (fun v => v.pattern = pat && equalFold v.method method)).length

/-- Drops the leading `:` of a parameter segment; models
`strings.TrimPrefix(seg, ":")` for a segment known to start with `:`. -/
def stripColon (s : String) : String :=
  ⟨s.data.drop 1⟩

/-- Stem of a prefix-literal segment; models `seg[:len(seg)-3]` for a
segment known to end in `...`. -/
def stemOf (s : String) : String :=
  ⟨s.data.take (s.data.length - 3)⟩

/-- Models the segment walk of `route.match`, structurally over the
pattern segments and the request segments at the same index: a parameter
segment binds and advances, a non-parameter segment ending in `...`
whose stem leads the request segment accepts the whole route at once,
any other non-parameter segment must be equal verbatim.  Running out of
request segments first (`i > len(segs)-1` in the Go loop) fails. -/
def walk : List String → List String → Ctx → Option Ctx
  | [], _, ctx => some ctx
  | _ :: _, [], _ => none
  | pseg :: prest, s :: srest, ctx =>
    if strStartsWith pseg ":" then
      walk prest srest ((stripColon pseg, s) :: ctx)
    else if strEndsWith pseg "..." && strStartsWith s (stemOf pseg) then
      some ctx
    else if pseg = s then walk prest srest ctx
    else none

/-- Models `route.match`: the up-front length gate (a request with more
segments than the pattern fails unless the route is a declared prefix),
then the walk. -/
def matchRoute (r : Route) (segs : List String) (ctx : Ctx) : Option Ctx :=
  if r.segs.length < segs.length && !r.isPfx then none
  else walk r.segs segs ctx

/-- Method gate of the `ServeHTTP` scan: the negation of
`route.method != method && route.method != "*"`, for a request method
already lower-cased. -/
def methodOk (r : Route) (m : String) : Bool :=
  r.method = m || r.method = "*"

/-- Linear scan of the table in order; first route passing both the
method gate and `matchRoute` wins. -/
def findRoute (m : String) (segs : List String) (ctx0 : Ctx) :
    List Route → Option (Route × Ctx)
  | [] => none
  | r :: rest =>
    if methodOk r m then
      match matchRoute r segs ctx0 with
      | some ctx => some (r, ctx)
      | none => findRoute m segs ctx0 rest
    else findRoute m segs ctx0 rest

/-- Models `Router.ServeHTTP` on a request with the given method and URL
path, starting from the request context `ctx0`: `some (r, ctx)` means
route `r`'s handler is invoked with context `ctx`; `none` means the
`NotFound` handler is invoked. -/
def dispatch (rt : Router) (method path : String) (ctx0 : Ctx) :
    Option (Route × Ctx) :=
  findRoute (toLowerStr method) (pathSegments path) ctx0 rt.routes

/-- Models the `Param` helper: the value of the most recent binding for
the name, or `""` when absent (the failed type assertion branch). -/
def paramGet : Ctx → String → String
  | [], _ => ""
  | (k, v) :: rest, name => if k = name then v else paramGet rest name

/-- Bindings produced by a successful walk of the given pattern segments
against the given request segments, newest first — a function of the
route's own segments and the request only. -/
def walkBinds : List String → List String → Ctx
  | [], _ => []
  | _ :: _, [] => []
  | pseg :: prest, s :: srest =>
    if strStartsWith pseg ":" then
      walkBinds prest srest ++ [(stripColon pseg, s)]
    else if strEndsWith pseg "..." && strStartsWith s (stemOf pseg) then
      []
    else walkBinds prest srest

/-- Combined match test used by the dispatch characterization: the method
gate together with success of `matchRoute`. -/
def routeMatches (m : String) (segs : List String) (ctx0 : Ctx) (r : Route) : Bool :=
  methodOk r m && (matchRoute r segs ctx0).isSome

/-- Does the first segment list lead (appear as an initial run of) the
second?  Used to state the "request extends the pattern" clause. -/
def isLeading : List String → List String → Bool
  | [], _ => true
  | _ :: _, [] => false
  | a :: as, b :: bs => a = b && isLeading as bs

/-- Root-level parameter test used by the first two comparator branches:
the lower-cased pattern starts with `/:`. -/
def isRootParam (s : String) : Bool :=
  strStartsWith (toLowerStr s) "/:"

/-- Does the lower-cased pattern contain the parameter marker `:`? -/
def hasParamMark (s : String) : Bool :=
  strHasChar (toLowerStr s) ':'

/-- Comparator rank of a pattern: literal-only patterns first, then
patterns with a parameter deeper than the root, then root parameters. -/
def rankOf (s : String) : Nat :=
  if isRootParam s then 2 else if hasParamMark s then 1 else 0

/-- Tie-breaking string comparison of the comparator's final branches:
case-insensitive order, with case-sensitive order on case-equal strings. -/
def pairLt (x y : String) : Bool :=
  if toLowerStr x = toLowerStr y then strLt x y else strLt (toLowerStr x) (toLowerStr y)

theorem charEq_of_toNat {a b : Char} (h : a.toNat = b.toNat) : a = b :=
  Char.eq_of_val_eq (UInt32.ext h)

theorem listLt_asymm : ∀ {a b : List Char},
    listLt a b = true → listLt b a = true → False := by
  intro a
  induction a with
  | nil => intro b h1 h2; cases b <;> simp [listLt] at h1 h2
  | cons x xs ih =>
    intro b h1 h2
    cases b with
    | nil => simp [listLt] at h1
    | cons y ys =>
      simp only [listLt, Bool.or_eq_true, Bool.and_eq_true, decide_eq_true_eq] at h1 h2
      rcases h1 with h1 | ⟨h1e, h1r⟩ <;> rcases h2 with h2 | ⟨h2e, h2r⟩ <;>
        first
          | omega
          | exact ih h1r h2r

theorem listLt_trans : ∀ {a b c : List Char},
    listLt a b = true → listLt b c = true → listLt a c = true := by
  intro a
  induction a with
  | nil =>
    intro b c h1 h2
    cases b <;> cases c <;> simp_all [listLt]
  | cons x xs ih =>
    intro b c h1 h2
    cases b with
    | nil => simp [listLt] at h1
    | cons y ys =>
      cases c with
      | nil => simp [listLt] at h2
      | cons z zs =>
        simp only [listLt, Bool.or_eq_true, Bool.and_eq_true, decide_eq_true_eq] at h1 h2 ⊢
        rcases h1 with h1 | ⟨h1e, h1r⟩ <;> rcases h2 with h2 | ⟨h2e, h2r⟩
        · left; omega
        · left; omega
        · left; omega
        · right; exact ⟨by omega, ih h1r h2r⟩

theorem listLt_connex : ∀ {a b : List Char},
    a ≠ b → listLt a b = true ∨ listLt b a = true := by
  intro a
  induction a with
  | nil =>
    intro b hne
    cases b with
    | nil => exact absurd rfl hne
    | cons y ys => left; simp [listLt]
  | cons x xs ih =>
    intro b hne
    cases b with
    | nil => right; simp [listLt]
    | cons y ys =>
      by_cases he : x.toNat = y.toNat
      · have hxy : x = y := charEq_of_toNat he
        subst hxy
        have hne2 : xs ≠ ys := by
          intro h; exact hne (by rw [h])
        rcases ih hne2 with h | h
        · left; simp [listLt, h]
        · right; simp [listLt, h]
      · rcases Nat.lt_or_ge x.toNat y.toNat with h | h
        · left; simp [listLt, h]
        · have hgt : y.toNat < x.toNat := by omega
          right; simp [listLt, hgt]

theorem strExt {a b : String} (h : a.data = b.data) : a = b := by
  cases a; cases b; simp_all

theorem strLt_asymm {a b : String} (h1 : strLt a b = true) (h2 : strLt b a = true) :
    False :=
  listLt_asymm h1 h2

theorem strLt_trans {a b c : String} (h1 : strLt a b = true) (h2 : strLt b c = true) :
    strLt a c = true :=
  listLt_trans h1 h2

theorem strLt_connex {a b : String} (h : a ≠ b) :
    strLt a b = true ∨ strLt b a = true := by
  have : a.data ≠ b.data := fun hd => h (strExt hd)
  exact listLt_connex this

theorem pairLt_asymm {a b : String} (h1 : pairLt a b = true) (h2 : pairLt b a = true) :
    False := by
  unfold pairLt at h1 h2
  by_cases he : toLowerStr a = toLowerStr b
  · rw [if_pos he] at h1
    rw [if_pos he.symm] at h2
    exact strLt_asymm h1 h2
  · rw [if_neg he] at h1
    rw [if_neg (fun h => he h.symm)] at h2
    exact strLt_asymm h1 h2

theorem pairLt_trans {a b c : String} (h1 : pairLt a b = true) (h2 : pairLt b c = true) :
    pairLt a c = true := by
  unfold pairLt at h1 h2 ⊢
  by_cases hab : toLowerStr a = toLowerStr b <;>
    by_cases hbc : toLowerStr b = toLowerStr c
  · rw [if_pos hab] at h1
    rw [if_pos hbc] at h2
    rw [if_pos (hab.trans hbc)]
    exact strLt_trans h1 h2
  · rw [if_pos hab] at h1
    rw [if_neg hbc] at h2
    rw [if_neg (by rw [hab]; exact hbc), hab]
    exact h2
  · rw [if_neg hab] at h1
    rw [if_pos hbc] at h2
    rw [if_neg (by rw [← hbc]; exact hab), ← hbc]
    exact h1
  · rw [if_neg hab] at h1
    rw [if_neg hbc] at h2
    have hac : toLowerStr a ≠ toLowerStr c := by
      intro h
      rw [h] at h1
      exact strLt_asymm (strLt_trans h1 h2) (strLt_trans h1 h2)
    rw [if_neg hac]
    exact strLt_trans h1 h2

theorem pairLt_connex {a b : String} (h : a ≠ b) :
    pairLt a b = true ∨ pairLt b a = true := by
  unfold pairLt
  by_cases he : toLowerStr a = toLowerStr b
  · rw [if_pos he, if_pos he.symm]
    exact strLt_connex h
  · rw [if_neg he, if_neg (fun hx => he hx.symm)]
    exact strLt_connex he

theorem rootParam_hasMark {s : String} (h : isRootParam s = true) :
    hasParamMark s = true := by
  unfold isRootParam strStartsWith at h
  unfold hasParamMark strHasChar
  cases hd : (toLowerStr s).data with
  | nil => rw [hd] at h; simp [listStartsWith] at h
  | cons c cs =>
    rw [hd] at h
    cases cs with
    | nil =>
      simp only [show ("/:" : String).data = ['/', ':'] from rfl, listStartsWith] at h
      simp at h
    | cons c2 cs2 =>
      simp only [show ("/:" : String).data = ['/', ':'] from rfl, listStartsWith,
        Bool.and_eq_true, decide_eq_true_eq] at h
      simp [listHasChar, h.2.1]


/-- Characterization of `lessPat` for a pair in which not both patterns
are root parameters: the lexicographic order on (`rankOf`, `pairLt`). -/
theorem lessPat_char {si sj : String}
    (h : ¬(isRootParam si = true ∧ isRootParam sj = true)) :
    lessPat si sj = true ↔
      (rankOf si < rankOf sj ∨ (rankOf si = rankOf sj ∧ pairLt si sj = true)) := by
  have hmi := @rootParam_hasMark si
  have hmj := @rootParam_hasMark sj
  unfold isRootParam at h
  unfold hasParamMark at hmi hmj
  unfold lessPat rankOf pairLt isRootParam hasParamMark
  split_ifs <;> simp_all

/-- Asymmetry of the comparator away from the root-parameter pathology. -/
theorem lessPat_asymm {si sj : String}
    (h : ¬(isRootParam si = true ∧ isRootParam sj = true))
    (h1 : lessPat si sj = true) (h2 : lessPat sj si = true) : False := by
  have hsym : ¬(isRootParam sj = true ∧ isRootParam si = true) :=
    fun hx => h ⟨hx.2, hx.1⟩
  rcases (lessPat_char h).mp h1 with ha | ⟨ha, ha2⟩ <;>
    rcases (lessPat_char hsym).mp h2 with hb | ⟨hb, hb2⟩
  · omega
  · omega
  · omega
  · exact pairLt_asymm ha2 hb2

/-- If the comparator does not place `b` before `a`, and neither pair is
the root-parameter pathology, then it places `a` no later than `b` or the
two patterns are equal; stated positively below as totality of `routeLe`. -/
theorem lessPat_total {a b : String}
    (hab : ¬(isRootParam a = true ∧ isRootParam b = true)) :
    lessPat a b = false ∨ lessPat b a = false := by
  by_cases h1 : lessPat a b = true
  · by_cases h2 : lessPat b a = true
    · exact absurd (lessPat_asymm hab h1 h2) not_false
    · right; exact Bool.eq_false_iff.mpr h2
  · left; exact Bool.eq_false_iff.mpr h1

/-- Transitivity of "not strictly after" for triples avoiding the
root-parameter pathology on each pair. -/
theorem notLess_trans {a b c : String}
    (hab : ¬(isRootParam a = true ∧ isRootParam b = true))
    (hbc : ¬(isRootParam b = true ∧ isRootParam c = true))
    (hac : ¬(isRootParam a = true ∧ isRootParam c = true))
    (h1 : lessPat b a = false) (h2 : lessPat c b = false) :
    lessPat c a = false := by
  by_cases hca : lessPat c a = true
  · exfalso
    have hsym_ac : ¬(isRootParam c = true ∧ isRootParam a = true) :=
      fun hx => hac ⟨hx.2, hx.1⟩
    have hsym_ab : ¬(isRootParam b = true ∧ isRootParam a = true) :=
      fun hx => hab ⟨hx.2, hx.1⟩
    have hsym_bc : ¬(isRootParam c = true ∧ isRootParam b = true) :=
      fun hx => hbc ⟨hx.2, hx.1⟩
    rcases (lessPat_char hsym_ac).mp hca with hlt | ⟨heq, hp⟩
    · -- rank c < rank a: then either rank c < rank b or rank b < rank a
      by_cases hx : rankOf c < rankOf b
      · exact absurd ((lessPat_char hsym_bc).mpr (Or.inl hx)) (by simp [h2])
      · have : rankOf b < rankOf a := by omega
        exact absurd ((lessPat_char hsym_ab).mpr (Or.inl this)) (by simp [h1])
    · -- ranks of a and c equal, pairLt c a
      by_cases hx : rankOf c < rankOf b
      · exact absurd ((lessPat_char hsym_bc).mpr (Or.inl hx)) (by simp [h2])
      · by_cases hy : rankOf b < rankOf a
        · exact absurd ((lessPat_char hsym_ab).mpr (Or.inl hy)) (by simp [h1])
        · have hrbc : rankOf c = rankOf b := by omega
          have hrba : rankOf b = rankOf a := by omega
          by_cases hcb : c = b
          · subst hcb
            exact absurd ((lessPat_char hsym_ab).mpr (Or.inr ⟨hrba, hp⟩))
              (by simp [h1])
          · rcases pairLt_connex hcb with hpc | hpc
            · exact absurd ((lessPat_char hsym_bc).mpr (Or.inr ⟨hrbc, hpc⟩))
                (by simp [h2])
            · have : pairLt b a = true := pairLt_trans hpc hp
              exact absurd ((lessPat_char hsym_ab).mpr (Or.inr ⟨hrba, this⟩))
                (by simp [h1])
  · exact Bool.eq_false_iff.mpr hca

/-- Pair of routes avoiding the comparator's root-parameter pathology:
not both patterns begin with `/:`. -/
def noR2 (a b : Route) : Prop :=
  ¬(isRootParam a.pattern = true ∧ isRootParam b.pattern = true)

theorem noR2_symm {a b : Route} (h : noR2 a b) : noR2 b a :=
  fun hx => h ⟨hx.2, hx.1⟩

instance (a b : Route) : Decidable (noR2 a b) := by
  unfold noR2
  infer_instance

theorem routeLe_iff {a b : Route} :
    routeLe a b = true ↔ lessPat b.pattern a.pattern = false := by
  unfold routeLe
  cases h : lessPat b.pattern a.pattern <;> simp

theorem routeLe_total {a b : Route} (h : noR2 a b) :
    routeLe a b = true ∨ routeLe b a = true := by
  rcases lessPat_total h with h1 | h1
  · right; exact routeLe_iff.mpr h1
  · left; exact routeLe_iff.mpr h1

theorem routeLe_trans {a b c : Route} (hab : noR2 a b) (hbc : noR2 b c)
    (hac : noR2 a c) (h1 : routeLe a b = true) (h2 : routeLe b c = true) :
    routeLe a c = true :=
  routeLe_iff.mpr (notLess_trans hab hbc hac (routeLe_iff.mp h1) (routeLe_iff.mp h2))

theorem ordIns_perm (a : Route) (l : List Route) :
    List.Perm (ordIns a l) (a :: l) := by
  induction l with
  | nil => simp [ordIns]
  | cons b bs ih =>
    unfold ordIns
    by_cases h : routeLe a b = true
    · rw [if_pos h]
    · rw [if_neg h]
      exact (List.Perm.cons b ih).trans (List.Perm.swap a b bs)

theorem insSort_perm (l : List Route) : List.Perm (insSort l) l := by
  induction l with
  | nil => simp [insSort]
  | cons a as ih =>
    unfold insSort
    exact (ordIns_perm a (insSort as)).trans (List.Perm.cons a ih)

theorem mem_ordIns {x a : Route} {l : List Route} (h : x ∈ ordIns a l) :
    x = a ∨ x ∈ l := by
  have := (ordIns_perm a l).mem_iff.mp h
  simpa using this

theorem ordIns_pairwise {a : Route} {l : List Route}
    (hnr : List.Pairwise noR2 (a :: l))
    (hs : List.Pairwise (fun x y => routeLe x y = true) l) :
    List.Pairwise (fun x y => routeLe x y = true) (ordIns a l) := by
  induction l with
  | nil => simp [ordIns]
  | cons b bs ih =>
    have hnr_ab : noR2 a b := (List.pairwise_cons.mp hnr).1 b (by simp)
    have hnr_abs : ∀ x ∈ bs, noR2 a x := by
      intro x hx
      exact (List.pairwise_cons.mp hnr).1 x (by simp [hx])
    have hnr_bbs : List.Pairwise noR2 (b :: bs) := (List.pairwise_cons.mp hnr).2
    have hs_b := List.pairwise_cons.mp hs
    unfold ordIns
    by_cases h : routeLe a b = true
    · rw [if_pos h]
      refine List.pairwise_cons.mpr ⟨?_, hs⟩
      intro x hx
      rcases List.mem_cons.mp hx with hx | hx
      · subst hx; exact h
      · exact routeLe_trans hnr_ab ((List.pairwise_cons.mp hnr_bbs).1 x hx)
          (hnr_abs x hx) h (hs_b.1 x hx)
    · rw [if_neg h]
      have hba : routeLe b a = true := by
        rcases routeLe_total hnr_ab with h1 | h1
        · exact absurd h1 h
        · exact h1
      refine List.pairwise_cons.mpr ⟨?_, ?_⟩
      · intro x hx
        rcases mem_ordIns hx with hx | hx
        · subst hx; exact hba
        · exact hs_b.1 x hx
      · refine ih ?_ hs_b.2
        refine List.pairwise_cons.mpr ⟨hnr_abs, (List.pairwise_cons.mp hnr_bbs).2⟩

theorem insSort_pairwise {l : List Route} (hnr : List.Pairwise noR2 l) :
    List.Pairwise (fun x y => routeLe x y = true) (insSort l) := by
  induction l with
  | nil => simp [insSort]
  | cons a as ih =>
    have h1 : List.Pairwise noR2 as := (List.pairwise_cons.mp hnr).2
    have h2 : List.Pairwise noR2 (insSort as) :=
      (insSort_perm as).symm.pairwise h1 (fun h => noR2_symm h)
    have h3 : ∀ x ∈ insSort as, noR2 a x := by
      intro x hx
      exact (List.pairwise_cons.mp hnr).1 x ((insSort_perm as).mem_iff.mp hx)
    unfold insSort
    exact ordIns_pairwise (List.pairwise_cons.mpr ⟨h3, h2⟩) (ih h1)


theorem removeShift_length {bk : List Route} {i n : Nat} (hi : i < n)
    (hn : n ≤ bk.length) : (removeShift bk i n).length = bk.length := by
  simp only [removeShift, List.length_append, List.length_take, List.length_drop]
  omega

theorem take_removeShift {bk : List Route} {i n : Nat} (hi : i < n)
    (hn : n ≤ bk.length) :
    (removeShift bk i n).take (n - 1) =
      bk.take i ++ (bk.drop (i + 1)).take (n - 1 - i) := by
  have h12 : (bk.take i ++ (bk.drop (i + 1)).take (n - 1 - i)).length = n - 1 := by
    simp only [List.length_append, List.length_take, List.length_drop]
    omega
  have hassoc : removeShift bk i n =
      (bk.take i ++ (bk.drop (i + 1)).take (n - 1 - i)) ++ bk.drop (n - 1) := by
    unfold removeShift
    rw [List.append_assoc]
  rw [hassoc, List.take_append_of_le_length (by rw [h12])]
  exact List.take_of_length_le (by rw [h12])

theorem take_eq_append_cons {bk : List Route} {i n : Nat} (hi : i < n)
    (hn : n ≤ bk.length) (hin : i < bk.length) :
    bk.take n = bk.take i ++ bk.get ⟨i, hin⟩ :: (bk.drop (i + 1)).take (n - 1 - i) := by
  conv_lhs => rw [show n = i + (n - i) from by omega, List.take_add]
  congr 1
  rw [List.drop_eq_getElem_cons hin]
  rw [show n - i = (n - 1 - i) + 1 from by omega, List.take_succ_cons]
  rw [List.get_eq_getElem]

theorem removeLoop_sub {m p : String} : ∀ (k i : Nat) (bk : List Route) (n : Nat)
    (o : List Route × Nat), n ≤ bk.length →
    removeLoop m p k i bk n = some o →
    o.2 ≤ o.1.length ∧ List.Sublist (o.1.take o.2) (bk.take n) := by
  intro k
  induction k with
  | zero =>
    intro i bk n o hn heq
    unfold removeLoop at heq
    cases heq
    exact ⟨hn, List.Sublist.refl _⟩
  | succ k ih =>
    intro i bk n o hn heq
    unfold removeLoop at heq
    split at heq
    next =>
      cases heq
      exact ⟨hn, List.Sublist.refl _⟩
    next v hget =>
      obtain ⟨hin, -⟩ := List.get?_eq_some.mp hget
      by_cases hc : (v.pattern = p && equalFold v.method m) = true
      · rw [if_pos hc] at heq
        by_cases hlt : i < n
        · rw [if_pos hlt] at heq
          have hlen : (removeShift bk i n).length = bk.length :=
            removeShift_length hlt hn
          have hrec := ih (i + 1) (removeShift bk i n) (n - 1) o
            (by rw [hlen]; omega) heq
          refine ⟨hrec.1, hrec.2.trans ?_⟩
          rw [take_removeShift hlt hn, take_eq_append_cons hlt hn hin]
          exact List.Sublist.append_left (List.sublist_cons_self _ _) _
        · rw [if_neg hlt] at heq
          cases heq
      · rw [if_neg hc] at heq
        exact ih (i + 1) bk n o hn heq

theorem removeGo_sub {t t2 : Router} {m p : String}
    (h : removeGo t m p = some t2) : List.Sublist t2.routes t.routes := by
  unfold removeGo at h
  cases hloop : removeLoop m p t.routes.length 0 t.routes t.routes.length with
  | none => rw [hloop] at h; cases h
  | some o =>
    rw [hloop] at h
    have hsub := removeLoop_sub t.routes.length 0 t.routes t.routes.length o
      (Nat.le_refl _) hloop
    simp only [Option.map_some'] at h
    cases h
    simpa [List.take_length] using hsub.2

theorem walk_eq_binds : ∀ (psegs segs : List String) (ctx ctx2 : Ctx),
    walk psegs segs ctx = some ctx2 → ctx2 = walkBinds psegs segs ++ ctx := by
  intro psegs
  induction psegs with
  | nil =>
    intro segs ctx ctx2 h
    unfold walk at h
    cases h
    simp [walkBinds]
  | cons q pr ih =>
    intro segs ctx ctx2 h
    cases segs with
    | nil => unfold walk at h; cases h
    | cons s sr =>
      unfold walk at h
      unfold walkBinds
      by_cases h1 : strStartsWith q ":" = true
      · rw [if_pos h1] at h
        rw [if_pos h1]
        have := ih sr ((stripColon q, s) :: ctx) ctx2 h
        rw [this, List.append_assoc]
        rfl
      · rw [if_neg h1] at h
        rw [if_neg h1]
        by_cases h2 : (strEndsWith q "..." && strStartsWith s (stemOf q)) = true
        · rw [if_pos h2] at h
          rw [if_pos h2]
          cases h
          simp
        · rw [if_neg h2] at h
          rw [if_neg h2]
          by_cases h3 : q = s
          · rw [if_pos h3] at h
            exact ih sr ctx ctx2 h
          · rw [if_neg h3] at h
            cases h

theorem isLeading_refl (l : List String) : isLeading l l = true := by
  induction l with
  | nil => rfl
  | cons a as ih => simp [isLeading, ih]

theorem isLeading_length : ∀ {a b : List String},
    isLeading a b = true → a.length ≤ b.length := by
  intro a
  induction a with
  | nil => intro b _; simp
  | cons x xs ih =>
    intro b h
    cases b with
    | nil => simp [isLeading] at h
    | cons y ys =>
      simp only [isLeading, Bool.and_eq_true] at h
      have := ih h.2
      simp only [List.length_cons]
      omega

theorem isLeading_eq : ∀ {a b : List String},
    isLeading a b = true → b.length ≤ a.length → a = b := by
  intro a
  induction a with
  | nil =>
    intro b _ hlen
    cases b with
    | nil => rfl
    | cons y ys => simp at hlen
  | cons x xs ih =>
    intro b h hlen
    cases b with
    | nil => simp [isLeading] at h
    | cons y ys =>
      simp only [isLeading, Bool.and_eq_true, decide_eq_true_eq] at h
      simp only [List.length_cons] at hlen
      rw [h.1, ih h.2 (by omega)]

/-- On a pattern with no parameter segment and no prefix-literal segment
the walk is exactly the "pattern leads the request" test, and it leaves
the context untouched. -/
theorem walk_noparam : ∀ (psegs segs : List String) (ctx : Ctx),
    (∀ q ∈ psegs, strStartsWith q ":" = false) →
    (∀ q ∈ psegs, strEndsWith q "..." = false) →
    walk psegs segs ctx = if isLeading psegs segs then some ctx else none := by
  intro psegs
  induction psegs with
  | nil =>
    intro segs ctx _ _
    unfold walk
    simp [isLeading]
  | cons q pr ih =>
    intro segs ctx hnp hnd
    cases segs with
    | nil =>
      unfold walk
      simp [isLeading]
    | cons s sr =>
      unfold walk
      rw [if_neg (by rw [hnp q (by simp)]; exact Bool.false_ne_true)]
      rw [if_neg (by rw [hnd q (by simp)]; simp)]
      by_cases h3 : q = s
      · rw [if_pos h3]
        rw [ih sr ctx (fun x hx => hnp x (by simp [hx])) (fun x hx => hnd x (by simp [hx]))]
        simp [isLeading, h3]
      · rw [if_neg h3]
        simp [isLeading, h3]

/-- A prefix-literal segment reached by a walk whose earlier segments are
parameters or verbatim-equal accepts the whole route. -/
theorem walk_dots : ∀ (i : Nat) (psegs segs : List String) (ctx : Ctx)
    (q s : String),
    psegs.get? i = some q → segs.get? i = some s →
    strStartsWith q ":" = false →
    strEndsWith q "..." = true →
    strStartsWith s (stemOf q) = true →
    (∀ j qj sj, j < i → psegs.get? j = some qj → segs.get? j = some sj →
      strStartsWith qj ":" = true ∨ qj = sj) →
    ∃ ctx2, walk psegs segs ctx = some ctx2 := by
  intro i
  induction i with
  | zero =>
    intro psegs segs ctx q s hq hs hnp hnd hstem _
    cases psegs with
    | nil => cases hq
    | cons q0 pr =>
      cases segs with
      | nil => cases hs
      | cons s0 sr =>
        simp only [List.get?] at hq hs
        cases hq; cases hs
        refine ⟨ctx, ?_⟩
        unfold walk
        rw [if_neg (by rw [hnp]; exact Bool.false_ne_true)]
        rw [if_pos (by rw [hnd, hstem]; rfl)]
  | succ i ih =>
    intro psegs segs ctx q s hq hs hnp hnd hstem hearlier
    cases psegs with
    | nil => cases hq
    | cons q0 pr =>
      cases segs with
      | nil => cases hs
      | cons s0 sr =>
        simp only [List.get?] at hq hs
        have h0 := hearlier 0 q0 s0 (Nat.succ_pos i) rfl rfl
        unfold walk
        by_cases h1 : strStartsWith q0 ":" = true
        · rw [if_pos h1]
          exact ih pr sr ((stripColon q0, s0) :: ctx) q s hq hs hnp hnd hstem
            (fun j qj sj hj hqj hsj =>
              hearlier (j + 1) qj sj (by omega) hqj hsj)
        · rw [if_neg h1]
          by_cases h2 : (strEndsWith q0 "..." && strStartsWith s0 (stemOf q0)) = true
          · rw [if_pos h2]
            exact ⟨ctx, rfl⟩
          · rw [if_neg h2]
            have heq : q0 = s0 := by
              rcases h0 with h0 | h0
              · exact absurd h0 h1
              · exact h0
            rw [if_pos heq]
            exact ih pr sr ctx q s hq hs hnp hnd hstem
              (fun j qj sj hj hqj hsj =>
                hearlier (j + 1) qj sj (by omega) hqj hsj)

/-- Characterization of the `ServeHTTP` scan: either nothing matches and
the outcome is the fallback, or the table splits around a first matching
route which wins with its own match context. -/
theorem findRoute_spec : ∀ (l : List Route) (m : String) (segs : List String)
    (ctx0 : Ctx),
    (findRoute m segs ctx0 l = none ∧
      ∀ r ∈ l, routeMatches m segs ctx0 r = false) ∨
    (∃ l1 r l2 ctx, l = l1 ++ r :: l2 ∧
      findRoute m segs ctx0 l = some (r, ctx) ∧
      methodOk r m = true ∧ matchRoute r segs ctx0 = some ctx ∧
      ∀ x ∈ l1, routeMatches m segs ctx0 x = false) := by
  intro l
  induction l with
  | nil =>
    intro m segs ctx0
    left
    exact ⟨rfl, by simp⟩
  | cons r rest ih =>
    intro m segs ctx0
    by_cases hm : methodOk r m = true
    · cases hmr : matchRoute r segs ctx0 with
      | some ctx =>
        right
        refine ⟨[], r, rest, ctx, by simp, ?_, hm, hmr, by simp⟩
        unfold findRoute
        rw [if_pos hm, hmr]
      | none =>
        have hfail : routeMatches m segs ctx0 r = false := by
          unfold routeMatches
          rw [hmr]
          simp
        have hstep : findRoute m segs ctx0 (r :: rest) = findRoute m segs ctx0 rest := by
          conv_lhs => unfold findRoute
          rw [if_pos hm, hmr]
        rcases ih m segs ctx0 with ⟨hnone, hall⟩ | ⟨l1, r2, l2, ctx, hsplit, hfind, hok, hmatch, hearlier⟩
        · left
          refine ⟨by rw [hstep]; exact hnone, ?_⟩
          intro x hx
          rcases List.mem_cons.mp hx with hx | hx
          · subst hx; exact hfail
          · exact hall x hx
        · right
          refine ⟨r :: l1, r2, l2, ctx, by rw [hsplit]; rfl, by rw [hstep]; exact hfind,
            hok, hmatch, ?_⟩
          intro x hx
          rcases List.mem_cons.mp hx with hx | hx
          · subst hx; exact hfail
          · exact hearlier x hx
    · have hfail : routeMatches m segs ctx0 r = false := by
        unfold routeMatches
        cases hx : methodOk r m
        · simp
        · exact absurd hx hm
      have hstep : findRoute m segs ctx0 (r :: rest) = findRoute m segs ctx0 rest := by
        conv_lhs => unfold findRoute
        rw [if_neg hm]
      rcases ih m segs ctx0 with ⟨hnone, hall⟩ | ⟨l1, r2, l2, ctx, hsplit, hfind, hok, hmatch, hearlier⟩
      · left
        refine ⟨by rw [hstep]; exact hnone, ?_⟩
        intro x hx
        rcases List.mem_cons.mp hx with hx | hx
        · subst hx; exact hfail
        · exact hall x hx
      · right
        refine ⟨r :: l1, r2, l2, ctx, by rw [hsplit]; rfl, by rw [hstep]; exact hfind,
          hok, hmatch, ?_⟩
        intro x hx
        rcases List.mem_cons.mp hx with hx | hx
        · subst hx; exact hfail
        · exact hearlier x hx

theorem matchRoute_binds {r : Route} {segs : List String} {ctx0 ctx : Ctx}
    (h : matchRoute r segs ctx0 = some ctx) :
    ctx = walkBinds r.segs segs ++ ctx0 := by
  unfold matchRoute at h
  by_cases hg : (r.segs.length < segs.length && !r.isPfx) = true
  · rw [if_pos hg] at h; cases h
  · rw [if_neg hg] at h
    exact walk_eq_binds r.segs segs ctx0 ctx h

theorem findRoute_binds : ∀ (l : List Route) (m : String) (segs : List String)
    (ctx0 ctx : Ctx) (r : Route),
    findRoute m segs ctx0 l = some (r, ctx) →
    ctx = walkBinds r.segs segs ++ ctx0 := by
  intro l
  induction l with
  | nil => intro m segs ctx0 ctx r h; cases h
  | cons x rest ih =>
    intro m segs ctx0 ctx r h
    unfold findRoute at h
    by_cases hm : methodOk x m = true
    · rw [if_pos hm] at h
      cases hmr : matchRoute x segs ctx0 with
      | some c =>
        rw [hmr] at h
        cases h
        exact matchRoute_binds hmr
      | none =>
        rw [hmr] at h
        exact ih m segs ctx0 ctx r h
    · rw [if_neg hm] at h
      exact ih m segs ctx0 ctx r h

theorem findRoute_star : ∀ (l : List Route) (m1 m2 : String)
    (segs : List String) (ctx0 : Ctx),
    (∀ r ∈ l, r.method = "*") →
    findRoute m1 segs ctx0 l = findRoute m2 segs ctx0 l := by
  intro l
  induction l with
  | nil => intro m1 m2 segs ctx0 _; rfl
  | cons x rest ih =>
    intro m1 m2 segs ctx0 hstar
    have hx : x.method = "*" := hstar x (by simp)
    have hok : ∀ m, methodOk x m = true := by
      intro m
      unfold methodOk
      rw [hx]
      simp
    unfold findRoute
    rw [if_pos (hok m1), if_pos (hok m2)]
    cases hmr : matchRoute x segs ctx0 with
    | some c => rfl
    | none => exact ih m1 m2 segs ctx0 (fun r hr => hstar r (by simp [hr]))

theorem lowerChar_toNat_of_range {c : Char} (h1 : 65 ≤ c.toNat)
    (h2 : c.toNat ≤ 90) : (lowerChar c).toNat = c.toNat + 32 := by
  have hv : (c.toNat + 32).isValidChar := by left; omega
  unfold lowerChar
  have hc : (65 ≤ c.toNat && c.toNat ≤ 90) = true := by
    simp only [Bool.and_eq_true, decide_eq_true_eq]
    exact ⟨h1, h2⟩
  rw [if_pos hc]
  unfold Char.ofNat
  rw [dif_pos hv]
  rfl

theorem lowerChar_eq_star {c : Char} (h : lowerChar c = '*') : c = '*' := by
  by_cases hr : (65 ≤ c.toNat && c.toNat ≤ 90) = true
  · exfalso
    simp only [Bool.and_eq_true, decide_eq_true_eq] at hr
    have hlo := lowerChar_toNat_of_range hr.1 hr.2
    rw [h] at hlo
    have h42 : ('*').toNat = 42 := by decide
    omega
  · unfold lowerChar at h
    rw [if_neg hr] at h
    exact h

theorem toLowerStr_eq_star {s : String} : toLowerStr s = "*" ↔ s = "*" := by
  constructor
  · intro h
    unfold toLowerStr at h
    have hdata : s.data.map lowerChar = ['*'] := by
      have := congrArg String.data h
      simpa using this
    cases hd : s.data with
    | nil => rw [hd] at hdata; cases hdata
    | cons c cs =>
      rw [hd] at hdata
      cases cs with
      | nil =>
        simp only [List.map_cons, List.map_nil, List.cons.injEq, and_true] at hdata
        have := lowerChar_eq_star hdata
        subst this
        exact strExt (by rw [hd])
      | cons c2 cs2 =>
        simp at hdata
  · intro h
    subst h
    decide

/-- Router states reachable by sequences of `Handle` and (successful)
`Remove` calls in which a root-parameter pattern (one whose lower-casing
begins with `/:`) is only ever registered while no such entry is in the
table — the restriction under which the comparator is a strict weak
order. -/
inductive Reach : Router → Prop where
  | base : Reach emptyRouter
  | reg (t : Router) (m p : String) (h : Nat) (ht : Reach t)
      (hc : isRootParam p = true → ∀ r ∈ t.routes, isRootParam r.pattern = false) :
      Reach (handle t m p h)
  | del (t t2 : Router) (m p : String) (ht : Reach t)
      (hr : removeGo t m p = some t2) : Reach t2

theorem reach_inv {t : Router} (h : Reach t) :
    List.Pairwise noR2 t.routes ∧
      List.Pairwise (fun a b => routeLe a b = true) t.routes := by
  induction h with
  | base => exact ⟨List.Pairwise.nil, List.Pairwise.nil⟩
  | reg t m p hid ht hc ih =>
    have hnr : List.Pairwise noR2 (t.routes ++ [mkRoute m p hid]) := by
      rw [List.pairwise_append]
      refine ⟨ih.1, by simp [List.pairwise_cons], ?_⟩
      intro a ha b hb
      rcases List.mem_singleton.mp hb with rfl
      intro ⟨hra, hrb⟩
      have hp : isRootParam p = true := hrb
      have := hc hp a ha
      rw [this] at hra
      cases hra
    constructor
    · exact (insSort_perm _).symm.pairwise hnr (fun hx => noR2_symm hx)
    · exact insSort_pairwise hnr
  | del t t2 m p ht hr ih =>
    have hsub := removeGo_sub hr
    exact ⟨ih.1.sublist hsub, ih.2.sublist hsub⟩

/-- Patterns of the eight-route sorting example in the repository's
`TestAway`. -/
def eightPats : List String :=
  ["/:slug", "/", "/cool", "/cool/balloon", "/cool/:slug", "/cool/another",
   "/rss/:ok", "/rss.xml"]

/-- Registers each pattern of the list in order (method `GET`, as in the
test), starting from the empty router. -/
def regAll (l : List String) : Router :=
  l.foldl (fun t p => handle t "GET" p 0) emptyRouter

theorem regFold_perm : ∀ (l : List String) (t : Router),
    List.Perm ((l.foldl (fun t p => handle t "GET" p 0) t).routes)
      (t.routes ++ l.map (fun p => mkRoute "GET" p 0)) := by
  intro l
  induction l with
  | nil => intro t; simp
  | cons p ps ih =>
    intro t
    simp only [List.foldl_cons, List.map_cons]
    refine (ih (handle t "GET" p 0)).trans ?_
    have h1 : List.Perm ((handle t "GET" p 0).routes)
        (t.routes ++ [mkRoute "GET" p 0]) := insSort_perm _
    refine (h1.append_right _).trans ?_
    rw [List.append_assoc]
    simp

theorem regFold_sorted : ∀ (l : List String) (t : Router),
    List.Pairwise noR2 (t.routes ++ l.map (fun p => mkRoute "GET" p 0)) →
    List.Pairwise (fun a b => routeLe a b = true) t.routes →
    List.Pairwise (fun a b => routeLe a b = true)
      ((l.foldl (fun t p => handle t "GET" p 0) t).routes) := by
  intro l
  induction l with
  | nil =>
    intro t hnr hs
    simpa using hs
  | cons p ps ih =>
    intro t hnr hs
    simp only [List.foldl_cons]
    have hnr1 : List.Pairwise noR2 (t.routes ++ [mkRoute "GET" p 0]) := by
      refine hnr.sublist ?_
      simp only [List.map_cons]
      exact List.Sublist.append_left
        (List.cons_sublist_cons.mpr (List.nil_sublist _)) t.routes
    have hperm : List.Perm ((handle t "GET" p 0).routes ++ ps.map (fun p => mkRoute "GET" p 0))
        (t.routes ++ (p :: ps).map (fun p => mkRoute "GET" p 0)) := by
      simp only [List.map_cons]
      refine ((insSort_perm _).append_right _).trans ?_
      rw [List.append_assoc]
      simp
    refine ih (handle t "GET" p 0) ?_ ?_
    · exact hperm.symm.pairwise hnr (fun hx => noR2_symm hx)
    · exact insSort_pairwise hnr1

/-- Every pattern sorts strictly before a root-parameter pattern. -/
theorem lessPat_rootparam_right {si sj : String} (h : isRootParam sj = true) :
    lessPat si sj = true := by
  unfold isRootParam at h
  unfold lessPat
  rw [if_pos h]

/-- Table with two adjacent `(GET, /a)` duplicates followed by `/b`. -/
def rtrC1 : Router :=
  handle (handle (handle emptyRouter "GET" "/a" 1) "GET" "/a" 2) "GET" "/b" 3

/-- C1: the claim says `Remove(method, pattern)` deletes every route whose
method is case-insensitively equal and whose pattern is exactly equal, so
`Count` decreases by the number of such entries, including adjacent
duplicates.  The code violates this: on the table
[`GET /a`, `GET /a`, `GET /b`] there are two matching entries, yet
`Remove("GET", "/a")` deletes only the first (the in-place shift makes the
range loop skip the second), leaving a count of 2 instead of 1; on the
table [`GET /a`, `GET /a`] the same loop drives the slice expression in
`removeIndex` out of range (a runtime panic, modelled as `none`). -/
theorem C1_remove_skips_adjacent_duplicate :
    countMatching rtrC1 "GET" "/a" = 2 ∧
    countRoutes rtrC1 = 3 ∧
    (removeGo rtrC1 "GET" "/a").map countRoutes = some 2 ∧
    (removeGo rtrC1 "GET" "/a").map (fun t => countMatching t "GET" "/a") = some 1 ∧
    removeGo (handle (handle emptyRouter "GET" "/a" 1) "GET" "/a" 2) "GET" "/a" = none := by
  refine ⟨rfl, rfl, rfl, rfl, rfl⟩

/-- C2 counterexample: the comparator is not a strict total order — for
the distinct patterns `/:a` and `/:b` it reports each as sorting strictly
before the other (the first branch of `Less` answers `true` whenever the
second pattern starts with `/:`, even when both do). -/
theorem C2_counterexample :
    ("/:a" : String) ≠ "/:b" ∧
    lessPat "/:a" "/:b" = true ∧ lessPat "/:b" "/:a" = true := by
  refine ⟨by decide, rfl, rfl⟩

/-- C2 (amended): for every pair of distinct patterns not both beginning
with the root-level parameter marker `/:`, it is never the case that each
sorts strictly before the other. -/
theorem C2_no_mutual_precedence (a b : String) (hab : a ≠ b)
    (h : ¬(isRootParam a = true ∧ isRootParam b = true)) :
    ¬(lessPat a b = true ∧ lessPat b a = true) :=
  fun hx => lessPat_asymm h hx.1 hx.2

/-- C2 witness: the amended statement applied to the concrete distinct
patterns `/x` and `/y`. -/
theorem C2_witness :
    ("/x" : String) ≠ "/y" ∧
    ¬(isRootParam "/x" = true ∧ isRootParam "/y" = true) ∧
    ¬(lessPat "/x" "/y" = true ∧ lessPat "/y" "/x" = true) :=
  ⟨by decide, by decide, C2_no_mutual_precedence "/x" "/y" (by decide) (by decide)⟩

/-- C3 counterexample: for the route `/a.../b` (whose prefix-literal
segment is not last, so the route is not a declared prefix route) and the
request `/axx/y/z` (more segments than the pattern, first segment starting
with the stem `a`), `match` rejects up front — the claim's
"regardless of how many request segments remain" fails. -/
theorem C3_counterexample :
    strEndsWith "a..." "..." = true ∧
    strStartsWith "axx" (stemOf "a...") = true ∧
    (mkRoute "GET" "/a.../b" 0).segs = ["a...", "b"] ∧
    pathSegments "/axx/y/z" = ["axx", "y", "z"] ∧
    matchRoute (mkRoute "GET" "/a.../b" 0) (pathSegments "/axx/y/z") [] = none := by
  refine ⟨rfl, rfl, by decide, by decide, rfl⟩

/-- C3 (amended): a prefix-literal segment short-circuits the whole match
— provided the up-front length gate passes (the route is a declared prefix
route or the request has no more segments than the pattern), any route
whose earlier segments are parameters or verbatim-equal and whose
prefix-literal segment's stem leads the request segment matches, no matter
what pattern segments remain. -/
theorem C3_dots_short_circuit (r : Route) (segs : List String) (ctx : Ctx)
    (i : Nat) (q s : String)
    (hgate : r.isPfx = true ∨ segs.length ≤ r.segs.length)
    (hq : r.segs.get? i = some q) (hs : segs.get? i = some s)
    (hnp : strStartsWith q ":" = false)
    (hnd : strEndsWith q "..." = true)
    (hstem : strStartsWith s (stemOf q) = true)
    (hearlier : ∀ j qj sj, j < i → r.segs.get? j = some qj →
      segs.get? j = some sj → strStartsWith qj ":" = true ∨ qj = sj) :
    ∃ ctx2, matchRoute r segs ctx = some ctx2 := by
  unfold matchRoute
  have hcond : (r.segs.length < segs.length && !r.isPfx) = false := by
    rcases hgate with h | h
    · rw [h]; simp
    · simp [Nat.not_lt.mpr h]
  rw [if_neg (by rw [hcond]; exact Bool.false_ne_true)]
  exact walk_dots i r.segs segs ctx q s hq hs hnp hnd hstem hearlier

/-- C3 witness: the amended statement applied to route `/x/a.../b` and
request `/x/azz/q` — the walk stops at `a...` and the trailing pattern
segment `b` is never compared. -/
theorem C3_witness : ∃ ctx2,
    matchRoute (mkRoute "GET" "/x/a.../b" 0) (pathSegments "/x/azz/q") [] = some ctx2 := by
  refine C3_dots_short_circuit _ _ _ 1 "a..." "azz" (Or.inr (by decide)) (by decide)
    (by decide) (by decide) (by decide) (by decide) ?_
  intro j qj sj hj hqj hsj
  have hj0 : j = 0 := by omega
  subst hj0
  rw [show (mkRoute "GET" "/x/a.../b" 0).segs = ["x", "a...", "b"] from by decide] at hqj
  rw [show pathSegments "/x/azz/q" = ["x", "azz", "q"] from by decide] at hsj
  simp only [List.get?] at hqj hsj
  cases hqj
  cases hsj
  right
  rfl

/-- C4 counterexample: the pattern `/prefixdots...` contains no parameter
segment, and the request `/prefixdots` matches it although the two trimmed
segment sequences are unequal and the request does not extend the
pattern's segments — the claimed "if and only if" fails on prefix-literal
segments. -/
theorem C4_counterexample :
    (∀ q ∈ (mkRoute "GET" "/prefixdots..." 0).segs, strStartsWith q ":" = false) ∧
    matchRoute (mkRoute "GET" "/prefixdots..." 0) (pathSegments "/prefixdots") [] = some [] ∧
    (mkRoute "GET" "/prefixdots..." 0).segs ≠ pathSegments "/prefixdots" ∧
    isLeading (mkRoute "GET" "/prefixdots..." 0).segs (pathSegments "/prefixdots") = false := by
  refine ⟨by decide, rfl, by decide, rfl⟩

/-- C4 (amended): for every pattern with no parameter segment and no
prefix-literal (`...`) segment, a match succeeds exactly when the trimmed
segment sequences are equal or the route is a declared prefix route whose
segments lead the request's; and (for every pattern whatsoever) a request
with more segments than a non-prefix pattern never matches.  A request
with fewer segments is covered by the equivalence: it can neither be equal
nor be led by the longer pattern. -/
theorem C4_literal_dispatch :
    (∀ (r : Route) (segs : List String) (ctx : Ctx),
      (∀ q ∈ r.segs, strStartsWith q ":" = false) →
      (∀ q ∈ r.segs, strEndsWith q "..." = false) →
      ((∃ ctx2, matchRoute r segs ctx = some ctx2) ↔
        (r.segs = segs ∨ (r.isPfx = true ∧ isLeading r.segs segs = true)))) ∧
    (∀ (r : Route) (segs : List String) (ctx : Ctx),
      r.isPfx = false → r.segs.length < segs.length →
      matchRoute r segs ctx = none) := by
  constructor
  · intro r segs ctx hnp hnd
    unfold matchRoute
    by_cases hg : (r.segs.length < segs.length && !r.isPfx) = true
    · rw [if_pos hg]
      simp only [Bool.and_eq_true, decide_eq_true_eq, Bool.not_eq_true'] at hg
      constructor
      · rintro ⟨ctx2, hc⟩
        cases hc
      · rintro (heq | ⟨hpfx, _⟩)
        · exfalso
          rw [heq] at hg
          omega
        · rw [hpfx] at hg
          cases hg.2
    · rw [if_neg hg]
      rw [walk_noparam r.segs segs ctx hnp hnd]
      simp only [Bool.and_eq_true, decide_eq_true_eq, Bool.not_eq_true', not_and] at hg
      by_cases hl : isLeading r.segs segs = true
      · rw [if_pos hl]
        simp only [Option.some.injEq, exists_eq']
        constructor
        · intro _
          by_cases hpfx : r.isPfx = true
          · right
            exact ⟨hpfx, hl⟩
          · left
            have hge : ¬(r.segs.length < segs.length) := by
              intro hlt
              have h2 := hg hlt
              cases hx : r.isPfx
              · exact h2 hx
              · exact hpfx hx
            exact isLeading_eq hl (by
              have := isLeading_length hl
              omega)
        · intro _
          trivial
      · rw [if_neg hl]
        constructor
        · rintro ⟨ctx2, hc⟩
          cases hc
        · rintro (heq | ⟨_, hlead⟩)
          · exact absurd (heq ▸ isLeading_refl r.segs) hl
          · exact absurd hlead hl
  · intro r segs ctx hpfx hlen
    unfold matchRoute
    rw [if_pos (by rw [hpfx]; simp [hlen])]

/-- C4 witness: the amended equivalence applied to `/one` versus `/one`,
and the length gate applied to `/not-pfx` versus `/not-pfx/extra`. -/
theorem C4_witness :
    (∃ ctx2, matchRoute (mkRoute "GET" "/one" 0) (pathSegments "/one") [] = some ctx2) ∧
    matchRoute (mkRoute "GET" "/not-pfx" 0) (pathSegments "/not-pfx/extra") [] = none := by
  constructor
  · exact (C4_literal_dispatch.1 (mkRoute "GET" "/one" 0) (pathSegments "/one") []
      (by decide) (by decide)).mpr (Or.inl (by decide))
  · exact C4_literal_dispatch.2 (mkRoute "GET" "/not-pfx" 0)
      (pathSegments "/not-pfx/extra") [] (by decide) (by decide)

/-- Table obtained by registering the two root-parameter patterns. -/
def rtrC5 : Router := handle (handle emptyRouter "GET" "/:a" 0) "GET" "/:b" 1

/-- C5 counterexample: registering `/:a` and then `/:b` yields a table
whose entries are, per the comparator itself, each strictly before the
other — no order of the two is consistent with the comparator, so the
claimed invariant fails for this registration sequence. -/
theorem C5_counterexample :
    rtrC5.routes.map Route.pattern = ["/:b", "/:a"] ∧
    lessPat "/:a" "/:b" = true ∧ lessPat "/:b" "/:a" = true := by
  refine ⟨rfl, rfl, rfl⟩

/-- C5 (amended): for every sequence of register and (successful) remove
operations in which a root-parameter pattern (`/:`-leading) is only
registered while no such entry is present, the resulting table is pairwise
consistent with the comparator: no later entry sorts strictly before an
earlier one; register re-sorts, and remove preserves the survivors'
order. -/
theorem C5_table_sorted (t : Router) (h : Reach t) :
    List.Pairwise (fun a b => routeLe a b = true) t.routes :=
  (reach_inv h).2

/-- C5 witness: the amended statement applied to the sequence that
registers `/:slug` and then `/cool`. -/
theorem C5_witness :
    List.Pairwise (fun a b => routeLe a b = true)
      (handle (handle emptyRouter "GET" "/:slug" 0) "GET" "/cool" 1).routes := by
  refine C5_table_sorted _ ?_
  refine Reach.reg _ "GET" "/cool" 1 ?_ ?_
  · refine Reach.reg _ "GET" "/:slug" 0 Reach.base ?_
    intro _ r hr
    cases hr
  · intro hc
    exact absurd hc (by decide)

/-- C6: for every permutation in which the eight routes `/:slug`, `/`,
`/cool`, `/cool/balloon`, `/cool/:slug`, `/cool/another`, `/rss/:ok`,
`/rss.xml` are registered, the sorted table has `/` in the first position
and `/:slug` in the last. -/
theorem C6_eight_routes_order (l : List String) (h : List.Perm l eightPats) :
    ((regAll l).routes.head?).map Route.pattern = some "/" ∧
    ((regAll l).routes.getLast?).map Route.pattern = some "/:slug" := by
  have hTperm : List.Perm ((regAll l).routes)
      (l.map (fun p => mkRoute "GET" p 0)) := by
    have := regFold_perm l emptyRouter
    simpa [emptyRouter] using this
  have hlE : List.Perm (l.map (fun p => mkRoute "GET" p 0))
      (eightPats.map (fun p => mkRoute "GET" p 0)) := h.map _
  have hperm := hTperm.trans hlE
  have hnrE : List.Pairwise noR2 (eightPats.map (fun p => mkRoute "GET" p 0)) := by
    decide
  have hsort : List.Pairwise (fun a b => routeLe a b = true) ((regAll l).routes) := by
    refine regFold_sorted l emptyRouter ?_ List.Pairwise.nil
    have : List.Pairwise noR2 (l.map (fun p => mkRoute "GET" p 0)) :=
      hlE.symm.pairwise hnrE (fun hx => noR2_symm hx)
    simpa [emptyRouter] using this
  have hslash : mkRoute "GET" "/" 0 ∈ (regAll l).routes :=
    hperm.mem_iff.mpr (by decide)
  have hslug : mkRoute "GET" "/:slug" 0 ∈ (regAll l).routes :=
    hperm.mem_iff.mpr (by decide)
  constructor
  · cases hT : (regAll l).routes with
    | nil =>
      exfalso
      rw [hT] at hperm
      have := hperm.length_eq
      simp [eightPats] at this
    | cons hd rest =>
      have hhd_mem : hd ∈ eightPats.map (fun p => mkRoute "GET" p 0) :=
        hperm.mem_iff.mp (by rw [hT]; exact List.mem_cons_self _ _)
      by_cases heq : hd = mkRoute "GET" "/" 0
      · rw [heq]
        rfl
      · exfalso
        have hmem_rest : mkRoute "GET" "/" 0 ∈ rest := by
          rw [hT] at hslash
          rcases List.mem_cons.mp hslash with hx | hx
          · exact absurd hx.symm heq
          · exact hx
        have hle : routeLe hd (mkRoute "GET" "/" 0) = true := by
          rw [hT] at hsort
          exact (List.pairwise_cons.mp hsort).1 _ hmem_rest
        have hall : ∀ x ∈ eightPats.map (fun p => mkRoute "GET" p 0),
            x = mkRoute "GET" "/" 0 ∨ routeLe x (mkRoute "GET" "/" 0) = false := by
          decide
        rcases hall hd hhd_mem with hx | hx
        · exact heq hx
        · rw [hle] at hx
          cases hx
  · rw [List.getLast?_eq_head?_reverse]
    have hsort_rev : List.Pairwise (fun a b => routeLe b a = true)
        ((regAll l).routes).reverse := by
      rw [List.pairwise_reverse]
      exact hsort
    cases hT : ((regAll l).routes).reverse with
    | nil =>
      exfalso
      have hnil : (regAll l).routes = [] := by
        have := congrArg List.reverse hT
        simpa using this
      rw [hnil] at hperm
      have := hperm.length_eq
      simp [eightPats] at this
    | cons hd rest =>
      have hhd_mem : hd ∈ eightPats.map (fun p => mkRoute "GET" p 0) := by
        refine hperm.mem_iff.mp ?_
        rw [← List.mem_reverse, hT]
        exact List.mem_cons_self _ _
      by_cases heq : hd = mkRoute "GET" "/:slug" 0
      · rw [heq]
        rfl
      · exfalso
        have hmem_rest : mkRoute "GET" "/:slug" 0 ∈ rest := by
          have : mkRoute "GET" "/:slug" 0 ∈ ((regAll l).routes).reverse :=
            List.mem_reverse.mpr hslug
          rw [hT] at this
          rcases List.mem_cons.mp this with hx | hx
          · exact absurd hx.symm heq
          · exact hx
        have hle : routeLe (mkRoute "GET" "/:slug" 0) hd = true := by
          rw [hT] at hsort_rev
          exact (List.pairwise_cons.mp hsort_rev).1 _ hmem_rest
        have : lessPat hd.pattern "/:slug" = true :=
          lessPat_rootparam_right (by decide)
        rw [routeLe_iff] at hle
        have hpat : (mkRoute "GET" "/:slug" 0).pattern = "/:slug" := rfl
        rw [hpat] at hle
        rw [hle] at this
        cases this

/-- C6 witness: the statement applied to the registration order of the
repository's `TestAway`. -/
theorem C6_witness :
    ((regAll eightPats).routes.head?).map Route.pattern = some "/" ∧
    ((regAll eightPats).routes.getLast?).map Route.pattern = some "/:slug" :=
  C6_eight_routes_order eightPats (List.Perm.refl _)

/-- C7: dispatch always terminates (it is a total function of the model)
and its outcome is exactly one of two exclusive events — either the first
route of the table, in sorted order, that passes the method gate and the
segment match is invoked with its bound parameters (`some`), every earlier
entry failing, or no route matches and the fallback handler alone is
invoked (`none`). -/
theorem C7_dispatch_exclusive (rt : Router) (m p : String) (ctx0 : Ctx) :
    (dispatch rt m p ctx0 = none ∧
      ∀ r ∈ rt.routes, routeMatches (toLowerStr m) (pathSegments p) ctx0 r = false) ∨
    (∃ l1 r l2 ctx, rt.routes = l1 ++ r :: l2 ∧
      dispatch rt m p ctx0 = some (r, ctx) ∧
      methodOk r (toLowerStr m) = true ∧
      matchRoute r (pathSegments p) ctx0 = some ctx ∧
      ∀ x ∈ l1, routeMatches (toLowerStr m) (pathSegments p) ctx0 x = false) :=
  findRoute_spec rt.routes (toLowerStr m) (pathSegments p) ctx0

/-- C8: method matching is case-insensitive on both sides and `*` is a
wildcard — a registered route is considered for a request exactly when the
lower-casings agree or the registered method is `*`, and on a table of
`*`-routes dispatch is identical for every pair of request methods (in
particular for GET, POST and PUT). -/
theorem C8_method_case_insensitive :
    (∀ (mReg pat : String) (hid : Nat) (mReq : String),
      methodOk (mkRoute mReg pat hid) (toLowerStr mReq) =
        (decide (toLowerStr mReg = toLowerStr mReq) || decide (mReg = "*"))) ∧
    (∀ (rt : Router), (∀ r ∈ rt.routes, r.method = "*") →
      ∀ (p : String) (ctx0 : Ctx) (m1 m2 : String),
        dispatch rt m1 p ctx0 = dispatch rt m2 p ctx0) := by
  constructor
  · intro mReg pat hid mReq
    unfold methodOk mkRoute
    simp only []
    rw [decide_eq_decide.mpr (@toLowerStr_eq_star mReg)]
  · intro rt hstar p ctx0 m1 m2
    unfold dispatch
    exact findRoute_star rt.routes (toLowerStr m1) (toLowerStr m2)
      (pathSegments p) ctx0 hstar

/-- C8 witness: registration `get` matches request `GET`, and the
`*`-registered route dispatches GET and POST identically. -/
theorem C8_witness :
    methodOk (mkRoute "get" "/methodcase" 0) (toLowerStr "GET") = true ∧
    dispatch (handle emptyRouter "*" "/all-methods" 0) "GET" "/all-methods" [] =
      dispatch (handle emptyRouter "*" "/all-methods" 0) "POST" "/all-methods" [] := by
  constructor
  · rw [C8_method_case_insensitive.1 "get" "/methodcase" 0 "GET"]
    decide
  · exact C8_method_case_insensitive.2 (handle emptyRouter "*" "/all-methods" 0)
      (by decide) "/all-methods" [] "GET" "POST"

/-- Table holding the single route `GET /path-param/:id`. -/
def rtrC9 : Router := handle emptyRouter "GET" "/path-param/:id" 7

/-- C9: dispatching `/path-param/123` against pattern `/path-param/:id`
matches, binds `id` to the raw segment `123`, and parameter retrieval
never fails — `Param` returns the bound string for `id` and the empty
string for every other name. -/
theorem C9_param_binding :
    ∃ ctx, dispatch rtrC9 "GET" "/path-param/123" [] =
        some (mkRoute "GET" "/path-param/:id" 7, ctx) ∧
      paramGet ctx "id" = "123" ∧
      ∀ name, name ≠ "id" → paramGet ctx name = "" := by
  refine ⟨[("id", "123")], rfl, rfl, ?_⟩
  intro name hname
  show (if ("id" : String) = name then "123" else paramGet [] name) = ""
  rw [if_neg (fun hx => hname hx.symm)]
  rfl

/-- C9 witness: retrieval of the bound name `id` and of the missing name
`era` on the concrete dispatch result. -/
theorem C9_witness :
    ∃ ctx, dispatch rtrC9 "GET" "/path-param/123" [] =
        some (mkRoute "GET" "/path-param/:id" 7, ctx) ∧
      paramGet ctx "id" = "123" ∧ paramGet ctx "era" = "" := by
  obtain ⟨ctx, h1, h2, h3⟩ := C9_param_binding
  exact ⟨ctx, h1, h2, h3 "era" (by decide)⟩

/-- C10: bindings recorded by routes that ultimately fail never reach the
invoked handler — whenever dispatch selects a route, the context handed to
its handler is exactly the winning route's own parameter bindings on top
of the request's initial context, independent of any earlier route that
bound parameters before failing; when the fallback runs no context is
produced at all. -/
theorem C10_only_winner_binds (rt : Router) (m p : String) (ctx0 ctx : Ctx)
    (r : Route) (h : dispatch rt m p ctx0 = some (r, ctx)) :
    ctx = walkBinds r.segs (pathSegments p) ++ ctx0 :=
  findRoute_binds rt.routes (toLowerStr m) (pathSegments p) ctx0 ctx r h

/-- Table in which the first route in sorted order binds a parameter and
then fails on requests with two segments. -/
def rtrC10 : Router := handle (handle emptyRouter "GET" "/a/:x/q" 1) "GET" "/a/:y" 2

/-- C10 witness: the route `/a/:x/q` precedes `/a/:y` in the table and
binds `x` before failing on request `/a/7`; the handler context contains
only the winner's binding of `y`. -/
theorem C10_witness :
    dispatch rtrC10 "GET" "/a/7" [] = some (mkRoute "GET" "/a/:y" 2, [("y", "7")]) ∧
    ([("y", "7")] : Ctx) =
      walkBinds (mkRoute "GET" "/a/:y" 2).segs (pathSegments "/a/7") ++ [] := by
  have h1 : dispatch rtrC10 "GET" "/a/7" [] =
      some (mkRoute "GET" "/a/:y" 2, [("y", "7")]) := rfl
  exact ⟨h1, C10_only_winner_binds rtrC10 "GET" "/a/7" [] [("y", "7")]
    (mkRoute "GET" "/a/:y" 2) h1⟩
